import Mathlib

/-!
# fuzz_test/vuln.c

A shallow embedding of `vulnerable` and `main` from `fuzz_test/vuln.c`, with the
two `char` arrays modelled as bounds-checked byte lists.  A store outside the
destination array, or a load outside the source array, is undefined behaviour in
C; here it ends the run with a `Fault`.
-/

namespace Vuln

/-- One `char` seen as an unsigned byte; `0` is the string terminator. -/
abbrev Byte := Fin 256

/-- The ways a run can leave defined behaviour. -/
inductive Fault where
  /-- A store to `dst[index]` with `index` at or beyond the array's size. -/
  | overflow (index : Nat)
  /-- A load beyond the end of the array being read. -/
  | overread
  deriving DecidableEq, Repr

/-- A `char name[n]` object: exactly `n` bytes, of arbitrary (indeterminate)
content when it is a local that has not been initialised. -/
structure CharArray (n : Nat) where
  bytes : List Byte
  size_eq : bytes.length = n

/-- A destination array together with the record of the indices stored to,
oldest first.  The record is ghost state: the program never reads it. -/
structure Buf where
  bytes : List Byte
  writes : List Nat
  deriving DecidableEq, Repr

/-- The bytes of an ASCII string literal, without the terminator. -/
def ascii (s : String) : List Byte :=
  s.toList.map (fun c => Fin.ofNat c.toNat)

/-- The array a C string literal denotes: its characters and a final NUL. -/
def lit (s : String) : List Byte :=
  ascii s ++ [0]

/-- The store `dst[i] = c`, checked against the size of the array. -/
def Buf.store (dst : Buf) (i : Nat) (c : Byte) : Except Fault Buf :=
  if i < dst.bytes.length then
    .ok ⟨dst.bytes.set i c, dst.writes ++ [i]⟩
  else
    .error (.overflow i)

/-- The loop of `strcpy`, at index `i`: load the next source byte, store it at
`dst[i]`, stop after the terminator.  The capacity of `dst` is never consulted
by the loop itself; only `Buf.store` notices a store outside the array. -/
def strcpyLoop (i : Nat) (dst : Buf) : List Byte → Except Fault Buf
  | [] => .error .overread
  | c :: src =>
    match dst.store i c with
    | .error e => .error e
    | .ok dst1 => if c = 0 then .ok dst1 else strcpyLoop (i + 1) dst1 src

/-- Model of `strcpy(dst, src)`. -/
def strcpy (dst : Buf) (src : List Byte) : Except Fault Buf :=
  strcpyLoop 0 dst src

/-- Model of `strcmp(a, b)`: the difference of the first pair of bytes that
differ, or `0` when both strings end together. -/
def strcmp : List Byte → List Byte → Except Fault Int
  | a :: as, b :: bs =>
    if a ≠ b then .ok ((a.val : Int) - (b.val : Int))
    else if a = 0 then .ok 0
    else strcmp as bs
  | _, _ => .error .overread

/-- The characters a `%s` conversion prints: the bytes before the first NUL. -/
def cstr : List Byte → Except Fault (List Byte)
  | [] => .error .overread
  | c :: m =>
    if c = 0 then .ok []
    else
      match cstr m with
      | .error e => .error e
      | .ok s => .ok (c :: s)

/-- Model of `printf("<before>%s<after>", arg)`: the bytes sent to standard
output. -/
def printf_s (before : String) (arg : List Byte) (after : String) :
    Except Fault (List Byte) :=
  match cstr arg with
  | .error e => .error e
  | .ok s => .ok (ascii before ++ s ++ ascii after)

/-- What one completed call of `vulnerable` leaves behind: the local `buffer`
with its store record, and the bytes printed. -/
structure Frame where
  buffer : Buf
  out : List Byte
  deriving DecidableEq, Repr

/-- Model of `void vulnerable(char *str)`.  `buffer` is the local
`char buffer[10]` as found on entry; `str` is the memory readable from the
pointer. -/
def vulnerable (buffer : CharArray 10) (str : List Byte) : Except Fault Frame :=
  match strcpy ⟨buffer.bytes, []⟩ str with
  | .error e => .error e
  | .ok buf =>
    match strcmp buf.bytes (lit "secret") with
    | .error e => .error e
    | .ok r =>
      if r = 0 then
        .ok ⟨buf, ascii "You found the secret!\n"⟩
      else
        match printf_s "Received: " buf.bytes "\n" with
        | .error e => .error e
        | .ok out => .ok ⟨buf, out⟩

/-- What the `read` call meets on descriptor 0. -/
inductive Stdin where
  /-- The call fails: it returns `-1`. -/
  | fail
  /-- The bytes the stream has for this call; `[]` is end-of-stream. -/
  | data (bs : List Byte)
  deriving DecidableEq, Repr

/-- Model of `read(0, buf, count)`: the return value and the array afterwards.
At most `count` bytes are stored, at the start of the array; the rest of the
array keeps what it held. -/
def read (buf : List Byte) (count : Nat) : Stdin → Int × List Byte
  | .fail => (-1, buf)
  | .data bs =>
    let got := bs.take count
    ((got.length : Int), got ++ buf.drop got.length)

/-- A completed run of `main`: standard output, the exit status, and the
completed calls of `vulnerable` (ghost). -/
structure Exit where
  stdout : List Byte
  status : Int
  calls : List Frame
  deriving DecidableEq, Repr

/-- Model of `int main()`.  `input` is the local `char input[100]` and `buffer`
the local of `vulnerable`, both as found on entry. -/
def main (input : CharArray 100) (buffer : CharArray 10) (stdin : Stdin) :
    Except Fault Exit :=
  let r := read input.bytes 100 stdin
  if r.1 > 0 then
    match vulnerable buffer r.2 with
    | .error e => .error e
    | .ok f => .ok ⟨f.out, 0, [f]⟩
  else
    .ok ⟨[], 0, []⟩

/-- An array of `n` bytes all equal to `c`. -/
def CharArray.fill (n : Nat) (c : Byte) : CharArray n :=
  ⟨List.replicate n c, List.length_replicate n c⟩

/-- A staging array whose storage still holds the string "old!" from an earlier
use, followed by zero bytes: one possible content of the uninitialised
`char input[100]`. -/
def staleInput : CharArray 100 :=
  ⟨ascii "old!" ++ List.replicate 96 0, by decide⟩

/-! ## Lemmas on the string functions -/

theorem set_at_boundary (pre post : List Byte) (p c : Byte) :
    (pre ++ p :: post).set pre.length c = pre ++ c :: post := by
  induction pre with
  | nil => rfl
  | cons a pre ih => simp [ih]

/-- A NUL-free string that leaves room for its terminator is copied whole, one
store per byte at consecutive indices. -/
theorem strcpyLoop_fits (s : List Byte) :
    ∀ (pre post : List Byte) (w : List Nat) (rest : List Byte),
      (0 : Byte) ∉ s → s.length < post.length →
      strcpyLoop pre.length ⟨pre ++ post, w⟩ (s ++ 0 :: rest) =
        .ok ⟨pre ++ s ++ 0 :: post.drop (s.length + 1),
             w ++ List.range' pre.length (s.length + 1)⟩ := by
  induction s with
  | nil =>
    intro pre post w rest _ hlen
    cases post with
    | nil => simp at hlen
    | cons p post =>
      simp [strcpyLoop, Buf.store, set_at_boundary, List.range']
  | cons c s ih =>
    intro pre post w rest hs hlen
    cases post with
    | nil => simp at hlen
    | cons p post =>
      have hc : c ≠ 0 := fun h => hs (by simp [h])
      have hs1 : (0 : Byte) ∉ s := fun h => hs (List.mem_cons_of_mem _ h)
      have hlen1 : s.length < post.length := by simpa using hlen
      have key := ih (pre ++ [c]) post (w ++ [pre.length]) rest hs1 hlen1
      simp only [List.length_append, List.length_singleton, List.append_assoc,
        List.singleton_append] at key
      simp [strcpyLoop, Buf.store, set_at_boundary, hc, key, List.range']

/-- A NUL-free string at least as long as the room left makes the loop store at
the index just past the array. -/
theorem strcpyLoop_overflow (s : List Byte) :
    ∀ (pre post : List Byte) (w : List Nat) (rest : List Byte),
      (0 : Byte) ∉ s → post.length ≤ s.length →
      strcpyLoop pre.length ⟨pre ++ post, w⟩ (s ++ 0 :: rest) =
        .error (.overflow (pre ++ post).length) := by
  induction s with
  | nil =>
    intro pre post w rest _ hlen
    have hp : post = [] := by simpa using hlen
    subst hp
    simp [strcpyLoop, Buf.store]
  | cons c s ih =>
    intro pre post w rest hs hlen
    cases post with
    | nil => simp [strcpyLoop, Buf.store]
    | cons p post =>
      have hc : c ≠ 0 := fun h => hs (by simp [h])
      have hs1 : (0 : Byte) ∉ s := fun h => hs (List.mem_cons_of_mem _ h)
      have hlen1 : post.length ≤ s.length := by simpa using hlen
      have key := ih (pre ++ [c]) post (w ++ [pre.length]) rest hs1 hlen1
      simp only [List.length_append, List.length_singleton, List.append_assoc,
        List.singleton_append] at key
      simp [strcpyLoop, Buf.store, set_at_boundary, hc, key]

/-- The loop only ever succeeds on a source that holds a terminator. -/
theorem strcpyLoop_ok_split (src : List Byte) :
    ∀ (i : Nat) (dst r : Buf), strcpyLoop i dst src = .ok r →
      ∃ s rest, src = s ++ 0 :: rest ∧ (0 : Byte) ∉ s := by
  induction src with
  | nil => intro i dst r h; simp [strcpyLoop] at h
  | cons c src ih =>
    intro i dst r h
    by_cases hc : c = 0
    · exact ⟨[], src, by simp [hc], by simp⟩
    · unfold strcpyLoop at h
      cases hst : dst.store i c with
      | error e => simp [hst] at h
      | ok dst1 =>
        simp only [hst, hc, if_false] at h
        obtain ⟨s, rest, hsrc, hs⟩ := ih (i + 1) dst1 r h
        refine ⟨c :: s, rest, by simp [hsrc], ?_⟩
        simp only [List.mem_cons, not_or]
        exact ⟨fun h0 => hc h0.symm, hs⟩

theorem strcpy_fits (b s rest : List Byte) (hs : (0 : Byte) ∉ s)
    (hlen : s.length < b.length) :
    strcpy ⟨b, []⟩ (s ++ 0 :: rest) =
      .ok ⟨s ++ 0 :: b.drop (s.length + 1), List.range (s.length + 1)⟩ := by
  have := strcpyLoop_fits s [] b [] rest hs hlen
  simpa [strcpy, List.range_eq_range'] using this

theorem strcpy_overflow (b s rest : List Byte) (hs : (0 : Byte) ∉ s)
    (hlen : b.length ≤ s.length) :
    strcpy ⟨b, []⟩ (s ++ 0 :: rest) = .error (.overflow b.length) := by
  have := strcpyLoop_overflow s [] b [] rest hs hlen
  simpa [strcpy] using this

theorem cstr_terminated (s rest : List Byte) (hs : (0 : Byte) ∉ s) :
    cstr (s ++ 0 :: rest) = .ok s := by
  induction s with
  | nil => simp [cstr]
  | cons c s ih =>
    have hc : c ≠ 0 := fun h => hs (by simp [h])
    have hs1 : (0 : Byte) ∉ s := fun h => hs (List.mem_cons_of_mem _ h)
    simp [cstr, hc, ih hs1]

/-- On two terminated strings `strcmp` returns, and returns `0` exactly when
the strings are equal. -/
theorem strcmp_terminated (s : List Byte) :
    ∀ (t r1 r2 : List Byte), (0 : Byte) ∉ s → (0 : Byte) ∉ t →
      ∃ d, strcmp (s ++ 0 :: r1) (t ++ 0 :: r2) = .ok d ∧ (d = 0 ↔ s = t) := by
  induction s with
  | nil =>
    intro t r1 r2 _ ht
    cases t with
    | nil => exact ⟨0, by simp [strcmp], by simp⟩
    | cons b t =>
      have hb : (0 : Byte) ≠ b := fun h => ht (by simp [h])
      refine ⟨((0 : Byte).val : Int) - (b.val : Int), by simp [strcmp, hb], ?_⟩
      have : b.val ≠ 0 := fun h => hb (Fin.ext h.symm)
      simp
      omega
  | cons a s ih =>
    intro t r1 r2 hs ht
    have ha : a ≠ 0 := fun h => hs (by simp [h])
    have hs1 : (0 : Byte) ∉ s := fun h => hs (List.mem_cons_of_mem _ h)
    cases t with
    | nil =>
      refine ⟨(a.val : Int) - ((0 : Byte).val : Int), by simp [strcmp, ha], ?_⟩
      have : a.val ≠ 0 := fun h => ha (Fin.ext h)
      simp
      omega
    | cons b t =>
      have ht1 : (0 : Byte) ∉ t := fun h => ht (List.mem_cons_of_mem _ h)
      by_cases hab : a = b
      · subst hab
        obtain ⟨d, hd, hiff⟩ := ih t r1 r2 hs1 ht1
        exact ⟨d, by simp [strcmp, ha, hd], by simp [hiff]⟩
      · refine ⟨(a.val : Int) - (b.val : Int), by simp [strcmp, hab], ?_⟩
        have : a.val ≠ b.val := fun h => hab (Fin.ext h)
        simp [hab]
        omega

/-! ## Lemmas on `vulnerable`, `read` and `main` -/

theorem ascii_secret_nul_free : (0 : Byte) ∉ ascii "secret" := by decide

/-- A terminated string of at most 9 characters: `vulnerable` returns, the
local array holds the string, and the line printed is decided by the
comparison with `"secret"`. -/
theorem vulnerable_fits (buffer : CharArray 10) (s rest : List Byte)
    (hs : (0 : Byte) ∉ s) (hlen : s.length ≤ 9) :
    vulnerable buffer (s ++ 0 :: rest) =
      .ok ⟨⟨s ++ 0 :: buffer.bytes.drop (s.length + 1), List.range (s.length + 1)⟩,
           if s = ascii "secret" then ascii "You found the secret!\n"
           else ascii "Received: " ++ s ++ ascii "\n"⟩ := by
  have hb : s.length < buffer.bytes.length := by rw [buffer.size_eq]; omega
  obtain ⟨d, hd, hiff⟩ :=
    strcmp_terminated s (ascii "secret") (buffer.bytes.drop (s.length + 1)) [] hs
      ascii_secret_nul_free
  have hd1 : strcmp (s ++ 0 :: buffer.bytes.drop (s.length + 1)) (lit "secret") = .ok d := hd
  unfold vulnerable
  rw [strcpy_fits buffer.bytes s rest hs hb]
  simp only [hd1]
  by_cases hsec : s = ascii "secret"
  · have hz : d = 0 := hiff.mpr hsec
    simp [hz, hsec]
  · have hz : d ≠ 0 := fun h => hsec (hiff.mp h)
    simp [hz, hsec, printf_s, cstr_terminated _ _ hs]

/-- A terminated string of 10 characters or more: the copy faults on the store
at index 10, and nothing is printed. -/
theorem vulnerable_overflow (buffer : CharArray 10) (s rest : List Byte)
    (hs : (0 : Byte) ∉ s) (hlen : 10 ≤ s.length) :
    vulnerable buffer (s ++ 0 :: rest) = .error (.overflow 10) := by
  have hb : buffer.bytes.length ≤ s.length := by rw [buffer.size_eq]; exact hlen
  unfold vulnerable
  rw [strcpy_overflow buffer.bytes s rest hs hb, buffer.size_eq]

/-- The return value of `read` is positive exactly when bytes were delivered. -/
theorem read_nonpos_iff (buf : List Byte) (stdin : Stdin) :
    (read buf 100 stdin).1 ≤ 0 ↔ stdin = .fail ∨ stdin = .data [] := by
  cases stdin with
  | fail => simp [read]
  | data bs =>
    cases bs with
    | nil => simp [read]
    | cons b bs =>
      simp only [read, List.take_succ_cons, List.length_cons, reduceCtorEq, false_or,
        Stdin.data.injEq, iff_false, not_le]
      omega

/-- The staging array keeps its size under `read`, the return value is at most
the count asked for, and the bytes delivered sit at the start of the array. -/
theorem read_stores_at_most (input : CharArray 100) (bs : List Byte) :
    (read input.bytes 100 (.data bs)).2.length = 100 ∧
    (read input.bytes 100 (.data bs)).1 = ((bs.take 100).length : Int) ∧
    (bs.take 100).length ≤ 100 ∧
    (read input.bytes 100 (.data bs)).2.take (bs.take 100).length = bs.take 100 := by
  have h : (bs.take 100).length ≤ 100 := by simp
  refine ⟨?_, rfl, h, ?_⟩
  · simp only [read, List.length_append, List.length_drop, input.size_eq]
    omega
  · simp [read]

/-- What `read` leaves in the staging array when the bytes delivered hold a
terminator among the first 100. -/
theorem read_terminated (buf s t : List Byte) (hlen : s.length ≤ 99) :
    ∃ rest, read buf 100 (.data (s ++ 0 :: t)) =
      (((min 100 (s.length + 1 + t.length) : Nat) : Int), s ++ 0 :: rest) := by
  obtain ⟨k, hk⟩ : ∃ k, 100 - s.length = k + 1 := ⟨99 - s.length, by omega⟩
  refine ⟨t.take k ++ buf.drop (min 100 (s.length + 1 + t.length)), ?_⟩
  have htake : (s ++ 0 :: t).take 100 = s ++ 0 :: t.take k := by
    rw [List.take_append_eq_append_take, List.take_of_length_le (by omega), hk,
      List.take_succ_cons]
  have hl : (s ++ 0 :: t.take k).length = min 100 (s.length + 1 + t.length) := by
    rw [← htake, List.length_take, List.length_append, List.length_cons]
    omega
  simp only [read, htake, hl, List.append_assoc, List.cons_append]

/-- A run whose input holds a terminator at index 9 or below completes, and
prints the line decided by the bytes before that terminator alone. -/
theorem main_fits (input : CharArray 100) (buffer : CharArray 10) (s t : List Byte)
    (hs : (0 : Byte) ∉ s) (hlen : s.length ≤ 9) :
    ∃ f, main input buffer (.data (s ++ 0 :: t)) =
      .ok ⟨if s = ascii "secret" then ascii "You found the secret!\n"
           else ascii "Received: " ++ s ++ ascii "\n", 0, [f]⟩ := by
  obtain ⟨rest, hr⟩ := read_terminated input.bytes s t (by omega)
  have hpos : ((min 100 (s.length + 1 + t.length) : Nat) : Int) > 0 := by omega
  refine ⟨⟨⟨s ++ 0 :: buffer.bytes.drop (s.length + 1), List.range (s.length + 1)⟩,
    if s = ascii "secret" then ascii "You found the secret!\n"
    else ascii "Received: " ++ s ++ ascii "\n"⟩, ?_⟩
  unfold main
  simp only [hr, hpos, if_true, vulnerable_fits buffer s rest hs hlen]

/-- Once the copy has returned, `vulnerable` returns too: the comparison and
the `%s` conversion find the terminator the copy stored. -/
theorem vulnerable_completes (buffer : CharArray 10) (str : List Byte) (b : Buf)
    (h : strcpy ⟨buffer.bytes, []⟩ str = .ok b) :
    ∃ f, vulnerable buffer str = .ok f := by
  obtain ⟨s, rest, hsrc, hs⟩ := strcpyLoop_ok_split str 0 _ b h
  subst hsrc
  by_cases hlen : s.length ≤ 9
  · exact ⟨_, vulnerable_fits buffer s rest hs hlen⟩
  · have hb : buffer.bytes.length ≤ s.length := by rw [buffer.size_eq]; omega
    rw [strcpy_overflow buffer.bytes s rest hs hb] at h
    simp at h

theorem mem_range_lt_ten (n : Nat) (hn : n ≤ 9) : ∀ i ∈ List.range (n + 1), i < 10 := by
  intro i hi
  have := List.mem_range.mp hi
  omega

/-! ## The claims -/

/-- C1: for every NUL-terminated string of fewer than 10 bytes counting the
terminator that is not "secret", `vulnerable` prints exactly "Received: ", the
string and a newline, and every store of the copy is at an index below 10. -/
theorem C1_short_input_echoed (buffer : CharArray 10) (s rest : List Byte)
    (hnul : (0 : Byte) ∉ s) (hlen : s.length + 1 < 10) (hsec : s ≠ ascii "secret") :
    ∃ f, vulnerable buffer (s ++ 0 :: rest) = .ok f ∧
      f.out = ascii "Received: " ++ s ++ ascii "\n" ∧
      f.buffer.writes = List.range (s.length + 1) ∧
      ∀ i ∈ f.buffer.writes, i < 10 := by
  refine ⟨_, vulnerable_fits buffer s rest hnul (by omega), ?_, rfl, ?_⟩
  · simp [hsec]
  · exact mem_range_lt_ten s.length (by omega)

theorem C1_short_input_echoed_witness :
    ((0 : Byte) ∉ ascii "hi" ∧ (ascii "hi").length + 1 < 10 ∧ ascii "hi" ≠ ascii "secret") ∧
    ∃ f, vulnerable (CharArray.fill 10 65) (ascii "hi" ++ 0 :: [1, 2, 3]) = .ok f ∧
      f.out = ascii "Received: " ++ ascii "hi" ++ ascii "\n" ∧
      f.buffer.writes = List.range ((ascii "hi").length + 1) ∧
      ∀ i ∈ f.buffer.writes, i < 10 :=
  ⟨by decide,
   C1_short_input_echoed (CharArray.fill 10 65) (ascii "hi") [1, 2, 3]
     (by decide) (by decide) (by decide)⟩

/-- C2: for the string "secret", whatever the local array held and whatever
follows the terminator in memory, `vulnerable` stores only at indices 0 to 6
and prints exactly "You found the secret!" and a newline. -/
theorem C2_secret_recognised (buffer : CharArray 10) (rest : List Byte) :
    ∃ f, vulnerable buffer (lit "secret" ++ rest) = .ok f ∧
      f.out = ascii "You found the secret!\n" ∧
      f.buffer.writes = [0, 1, 2, 3, 4, 5, 6] ∧
      ∀ i ∈ f.buffer.writes, i < 10 := by
  have h := vulnerable_fits buffer (ascii "secret") rest ascii_secret_nul_free (by decide)
  have hstr : lit "secret" ++ rest = ascii "secret" ++ 0 :: rest := by simp [lit]
  rw [hstr]
  have hw : List.range ((ascii "secret").length + 1) = [0, 1, 2, 3, 4, 5, 6] := by decide
  refine ⟨_, h, by simp, hw, ?_⟩
  exact mem_range_lt_ten _ (by decide)

/-- C3: for every NUL-terminated string of 10 characters or more, the copy in
`vulnerable` attempts a store at index 10, outside the 10-byte array: the
bounds-checked copy ends in the overflow fault, and so does `vulnerable`. -/
theorem C3_long_input_overruns (buffer : CharArray 10) (s rest : List Byte)
    (hnul : (0 : Byte) ∉ s) (hlen : 10 ≤ s.length) :
    strcpy ⟨buffer.bytes, []⟩ (s ++ 0 :: rest) = .error (.overflow 10) ∧
    vulnerable buffer (s ++ 0 :: rest) = .error (.overflow 10) := by
  refine ⟨?_, vulnerable_overflow buffer s rest hnul hlen⟩
  have hb : buffer.bytes.length ≤ s.length := by rw [buffer.size_eq]; exact hlen
  rw [strcpy_overflow buffer.bytes s rest hnul hb, buffer.size_eq]

theorem C3_long_input_overruns_witness :
    ((0 : Byte) ∉ ascii "AAAAAAAAAA" ∧ 10 ≤ (ascii "AAAAAAAAAA").length) ∧
    strcpy ⟨(CharArray.fill 10 0).bytes, []⟩ (ascii "AAAAAAAAAA" ++ 0 :: []) =
      .error (.overflow 10) ∧
    vulnerable (CharArray.fill 10 0) (ascii "AAAAAAAAAA" ++ 0 :: []) =
      .error (.overflow 10) :=
  ⟨by decide,
   C3_long_input_overruns (CharArray.fill 10 0) (ascii "AAAAAAAAAA") []
     (by decide) (by decide)⟩

/-- C4, as stated, fails: the 9-character string "AAAAAAAAA" is 10 bytes with
its terminator, and the copy stores at indices 0 to 9 only, with no overflow
fault at any index. -/
theorem C4_counterexample_nine_chars_fit :
    strcpy ⟨(CharArray.fill 10 0).bytes, []⟩ (lit "AAAAAAAAA") =
      .ok ⟨lit "AAAAAAAAA", [0, 1, 2, 3, 4, 5, 6, 7, 8, 9]⟩ ∧
    ∀ i, strcpy ⟨(CharArray.fill 10 0).bytes, []⟩ (lit "AAAAAAAAA") ≠
      .error (.overflow i) := by
  have h : strcpy ⟨(CharArray.fill 10 0).bytes, []⟩ (lit "AAAAAAAAA") =
      .ok ⟨lit "AAAAAAAAA", [0, 1, 2, 3, 4, 5, 6, 7, 8, 9]⟩ := by rfl
  exact ⟨h, fun i hi => by rw [h] at hi; simp at hi⟩

/-- C4, amended: among the NUL-terminated strings of 10 bytes or more counting
the terminator, the copy in `vulnerable` stores past the end of the 10-byte
array exactly for those of 11 bytes or more (10 characters or more), where it
faults on the store at index 10; a string of exactly 10 bytes counting the
terminator (9 characters) is copied entirely inside the array: the copy
returns, the array holds the string and its terminator, and the stores are at
indices 0 to 9, all below 10. -/
theorem C4_overrun_from_eleven_bytes (buffer : CharArray 10) (s rest : List Byte)
    (hnul : (0 : Byte) ∉ s) (hlen : 10 ≤ s.length + 1) :
    ((∃ i, 10 ≤ i ∧ strcpy ⟨buffer.bytes, []⟩ (s ++ 0 :: rest) = .error (.overflow i)) ↔
      11 ≤ s.length + 1) ∧
    (11 ≤ s.length + 1 →
      strcpy ⟨buffer.bytes, []⟩ (s ++ 0 :: rest) = .error (.overflow 10)) ∧
    (s.length + 1 = 10 →
      ∃ b, strcpy ⟨buffer.bytes, []⟩ (s ++ 0 :: rest) = .ok b ∧
        b.bytes = s ++ [0] ∧
        b.writes = List.range 10 ∧
        ∀ i ∈ b.writes, i < 10) := by
  have hover : 11 ≤ s.length + 1 →
      strcpy ⟨buffer.bytes, []⟩ (s ++ 0 :: rest) = .error (.overflow 10) := fun h11 => by
    have hb : buffer.bytes.length ≤ s.length := by rw [buffer.size_eq]; omega
    rw [strcpy_overflow buffer.bytes s rest hnul hb, buffer.size_eq]
  refine ⟨⟨?_, fun h11 => ⟨10, le_refl 10, hover h11⟩⟩, hover, ?_⟩
  · rintro ⟨i, _, hi⟩
    by_contra hlt
    have hb : s.length < buffer.bytes.length := by rw [buffer.size_eq]; omega
    rw [strcpy_fits buffer.bytes s rest hnul hb] at hi
    simp at hi
  · intro h10
    have h9 : s.length = 9 := by omega
    have hb : s.length < buffer.bytes.length := by rw [buffer.size_eq]; omega
    have hdrop : buffer.bytes.drop (s.length + 1) = [] :=
      List.drop_eq_nil_of_le (by rw [buffer.size_eq]; omega)
    refine ⟨_, strcpy_fits buffer.bytes s rest hnul hb, ?_, ?_, ?_⟩
    · simp only [hdrop]
    · simp only [h9]
    · exact mem_range_lt_ten s.length (by omega)

theorem C4_overrun_from_eleven_bytes_witness :
    (((0 : Byte) ∉ ascii "0123456789" ∧ 10 ≤ (ascii "0123456789").length + 1 ∧
        11 ≤ (ascii "0123456789").length + 1) ∧
      strcpy ⟨(CharArray.fill 10 0).bytes, []⟩ (ascii "0123456789" ++ 0 :: []) =
        .error (.overflow 10)) ∧
    (((0 : Byte) ∉ ascii "012345678" ∧ 10 ≤ (ascii "012345678").length + 1 ∧
        (ascii "012345678").length + 1 = 10) ∧
      ∃ b, strcpy ⟨(CharArray.fill 10 65).bytes, []⟩ (ascii "012345678" ++ 0 :: [7]) = .ok b ∧
        b.bytes = ascii "012345678" ++ [0] ∧
        b.writes = List.range 10 ∧
        ∀ i ∈ b.writes, i < 10) :=
  ⟨⟨by decide,
    (C4_overrun_from_eleven_bytes (CharArray.fill 10 0) (ascii "0123456789") []
      (by decide) (by decide)).2.1 (by decide)⟩,
   ⟨by decide,
    (C4_overrun_from_eleven_bytes (CharArray.fill 10 65) (ascii "012345678") [7]
      (by decide) (by decide)).2.2 (by decide)⟩⟩

/-- C5 fails on the code: `main` never stores a terminator after the bytes
read.  With the staging array holding "old!" beforehand, the 2-byte input "hi"
is echoed as "Received: hid!" (two extra bytes); with the staging array full of
'A' the same input makes the copy fault at index 10. -/
theorem C5_stale_bytes_follow_short_input :
    (∃ e, main staleInput (CharArray.fill 10 0) (.data (ascii "hi")) = .ok e ∧
      e.stdout = ascii "Received: hid!\n" ∧
      e.stdout ≠ ascii "Received: " ++ ascii "hi" ++ ascii "\n") ∧
    main (CharArray.fill 100 65) (CharArray.fill 10 0) (.data (ascii "hi")) =
      .error (.overflow 10) :=
  ⟨⟨_, rfl, by decide, by decide⟩, rfl⟩

/-- C6: `read` returns a non-positive value exactly on failure and on
end-of-stream, and then `main` makes no call of `vulnerable`, prints nothing
and returns status 0. -/
theorem C6_no_bytes_no_output (input : CharArray 100) (buffer : CharArray 10)
    (stdin : Stdin) :
    ((read input.bytes 100 stdin).1 ≤ 0 ↔ stdin = .fail ∨ stdin = .data []) ∧
    ((read input.bytes 100 stdin).1 ≤ 0 →
      main input buffer stdin = .ok ⟨[], 0, []⟩) := by
  refine ⟨read_nonpos_iff input.bytes stdin, fun h => ?_⟩
  unfold main
  simp only [gt_iff_lt, not_lt.mpr h, if_false]

theorem C6_no_bytes_no_output_witness :
    main (CharArray.fill 100 65) (CharArray.fill 10 65) .fail = .ok ⟨[], 0, []⟩ ∧
    main (CharArray.fill 100 65) (CharArray.fill 10 65) (.data []) = .ok ⟨[], 0, []⟩ :=
  ⟨(C6_no_bytes_no_output (CharArray.fill 100 65) (CharArray.fill 10 65) .fail).2 (by decide),
   (C6_no_bytes_no_output (CharArray.fill 100 65) (CharArray.fill 10 65) (.data [])).2
     (by decide)⟩

/-- C7 fails on the code: a read of 2 bytes (fewer than 100) into a staging
array full of 'A' returns 2 and leaves all 100 bytes of the array non-NUL, so
the sequence handed to `vulnerable` holds no terminator. -/
theorem C7_short_read_leaves_no_terminator :
    (read (CharArray.fill 100 65).bytes 100 (.data (ascii "hi"))).1 = 2 ∧
    (read (CharArray.fill 100 65).bytes 100 (.data (ascii "hi"))).2.length = 100 ∧
    (0 : Byte) ∉ (read (CharArray.fill 100 65).bytes 100 (.data (ascii "hi"))).2 ∧
    cstr (read (CharArray.fill 100 65).bytes 100 (.data (ascii "hi"))).2 =
      .error .overread :=
  ⟨by decide, by decide, by decide, rfl⟩

/-- C8: every completed run of `main` has exit status 0; and the run does
complete, with status 0, whenever processing is skipped and whenever the copy
into the local array returns without a fault. -/
theorem C8_exit_status_zero (input : CharArray 100) (buffer : CharArray 10)
    (stdin : Stdin) :
    (∀ e, main input buffer stdin = .ok e → e.status = 0) ∧
    ((read input.bytes 100 stdin).1 ≤ 0 →
      ∃ e, main input buffer stdin = .ok e ∧ e.status = 0) ∧
    (∀ b, strcpy ⟨buffer.bytes, []⟩ (read input.bytes 100 stdin).2 = .ok b →
      ∃ e, main input buffer stdin = .ok e ∧ e.status = 0) := by
  refine ⟨?_, ?_, ?_⟩
  · intro e he
    unfold main at he
    by_cases hpos : (read input.bytes 100 stdin).1 > 0
    · simp only [hpos, if_true] at he
      cases hv : vulnerable buffer (read input.bytes 100 stdin).2 with
      | error x => simp [hv] at he
      | ok f =>
        simp only [hv, Except.ok.injEq] at he
        rw [← he]
    · simp only [hpos, if_false, Except.ok.injEq] at he
      rw [← he]
  · intro h
    refine ⟨⟨[], 0, []⟩, ?_, rfl⟩
    unfold main
    simp only [gt_iff_lt, not_lt.mpr h, if_false]
  · intro b hb
    obtain ⟨f, hf⟩ := vulnerable_completes buffer _ b hb
    by_cases hpos : (read input.bytes 100 stdin).1 > 0
    · refine ⟨⟨f.out, 0, [f]⟩, ?_, rfl⟩
      unfold main
      simp only [hpos, if_true, hf]
    · refine ⟨⟨[], 0, []⟩, ?_, rfl⟩
      unfold main
      simp only [hpos, if_false]

theorem C8_exit_status_zero_witness :
    (∃ e, main (CharArray.fill 100 0) (CharArray.fill 10 65) .fail = .ok e ∧ e.status = 0) ∧
    (∃ e, main (CharArray.fill 100 0) (CharArray.fill 10 65) (.data (ascii "hi")) = .ok e ∧
      e.status = 0) :=
  ⟨(C8_exit_status_zero (CharArray.fill 100 0) (CharArray.fill 10 65) .fail).2.1 (by decide),
   (C8_exit_status_zero (CharArray.fill 100 0) (CharArray.fill 10 65)
      (.data (ascii "hi"))).2.2 ⟨ascii "hi" ++ 0 :: List.replicate 7 65, [0, 1, 2]⟩ (by rfl)⟩

/-- C9: for every NUL-terminated string the copy in `vulnerable` returns with
all its stores below index 10 exactly when the string has at most 9
characters, and faults on a store at index 10 or above exactly when it has
more; a 9-character string is copied with its last store at index 9 and is
echoed as "Received: ", the string and a newline. -/
theorem C9_boundary_is_nine_chars (buffer : CharArray 10) (s rest : List Byte)
    (hnul : (0 : Byte) ∉ s) :
    ((∃ b, strcpy ⟨buffer.bytes, []⟩ (s ++ 0 :: rest) = .ok b ∧ ∀ i ∈ b.writes, i < 10) ↔
      s.length ≤ 9) ∧
    ((∃ i, 10 ≤ i ∧ strcpy ⟨buffer.bytes, []⟩ (s ++ 0 :: rest) = .error (.overflow i)) ↔
      ¬ s.length ≤ 9) ∧
    (s.length = 9 →
      ∃ f, vulnerable buffer (s ++ 0 :: rest) = .ok f ∧
        f.buffer.writes.getLast? = some 9 ∧
        (∀ i ∈ f.buffer.writes, i < 10) ∧
        f.out = ascii "Received: " ++ s ++ ascii "\n") := by
  have hfit : s.length ≤ 9 → strcpy ⟨buffer.bytes, []⟩ (s ++ 0 :: rest) =
      .ok ⟨s ++ 0 :: buffer.bytes.drop (s.length + 1), List.range (s.length + 1)⟩ :=
    fun h => strcpy_fits buffer.bytes s rest hnul (by rw [buffer.size_eq]; omega)
  have hover : ¬ s.length ≤ 9 → strcpy ⟨buffer.bytes, []⟩ (s ++ 0 :: rest) =
      .error (.overflow 10) := fun h => by
    rw [strcpy_overflow buffer.bytes s rest hnul (by rw [buffer.size_eq]; omega),
      buffer.size_eq]
  refine ⟨⟨?_, ?_⟩, ⟨?_, ?_⟩, ?_⟩
  · rintro ⟨b, hb, _⟩
    by_contra hlen
    rw [hover hlen] at hb
    simp at hb
  · intro hlen
    exact ⟨_, hfit hlen, mem_range_lt_ten s.length hlen⟩
  · rintro ⟨i, _, hi⟩ hlen
    rw [hfit hlen] at hi
    simp at hi
  · intro hlen
    exact ⟨10, le_refl 10, hover hlen⟩
  · intro h9
    have hsec : s ≠ ascii "secret" := by
      intro h
      have h6 : (ascii "secret").length = 6 := by decide
      rw [h, h6] at h9
      omega
    refine ⟨_, vulnerable_fits buffer s rest hnul (by omega), ?_, ?_, ?_⟩
    · simp only [h9]
      decide
    · exact mem_range_lt_ten s.length (by omega)
    · simp [hsec]

theorem C9_boundary_is_nine_chars_witness :
    (0 : Byte) ∉ ascii "123456789" ∧ (ascii "123456789").length = 9 ∧
    ∃ f, vulnerable (CharArray.fill 10 65) (ascii "123456789" ++ 0 :: []) = .ok f ∧
      f.buffer.writes.getLast? = some 9 ∧
      (∀ i ∈ f.buffer.writes, i < 10) ∧
      f.out = ascii "Received: " ++ ascii "123456789" ++ ascii "\n" :=
  ⟨by decide, by decide,
   (C9_boundary_is_nine_chars (CharArray.fill 10 65) (ascii "123456789") []
      (by decide)).2.2 (by decide)⟩

/-- C10: two runs of `main` whose input bytes agree up to and including a
first NUL at index 9 or below both complete with the same output and status,
whatever follows the NUL and whatever the two arrays held beforehand; when the
bytes before the NUL are "secret" that output is "You found the secret!" and a
newline. -/
theorem C10_output_fixed_by_bytes_before_nul (input1 input2 : CharArray 100)
    (buffer1 buffer2 : CharArray 10) (s t1 t2 : List Byte)
    (hnul : (0 : Byte) ∉ s) (hk : s.length ≤ 9) :
    ∃ e1 e2, main input1 buffer1 (.data (s ++ 0 :: t1)) = .ok e1 ∧
      main input2 buffer2 (.data (s ++ 0 :: t2)) = .ok e2 ∧
      e1.stdout = e2.stdout ∧ e1.status = e2.status ∧
      (s = ascii "secret" → e1.stdout = ascii "You found the secret!\n") := by
  obtain ⟨f1, h1⟩ := main_fits input1 buffer1 s t1 hnul hk
  obtain ⟨f2, h2⟩ := main_fits input2 buffer2 s t2 hnul hk
  refine ⟨_, _, h1, h2, rfl, rfl, ?_⟩
  intro hsec
  simp [hsec]

theorem C10_output_fixed_by_bytes_before_nul_witness :
    ((0 : Byte) ∉ ascii "secret" ∧ (ascii "secret").length ≤ 9) ∧
    ∃ e1 e2,
      main (CharArray.fill 100 65) (CharArray.fill 10 0)
        (.data (ascii "secret" ++ 0 :: [])) = .ok e1 ∧
      main staleInput (CharArray.fill 10 65)
        (.data (ascii "secret" ++ 0 :: ascii "trailing data")) = .ok e2 ∧
      e1.stdout = e2.stdout ∧ e1.status = e2.status ∧
      (ascii "secret" = ascii "secret" → e1.stdout = ascii "You found the secret!\n") :=
  ⟨by decide,
   C10_output_fixed_by_bytes_before_nul (CharArray.fill 100 65) staleInput
     (CharArray.fill 10 0) (CharArray.fill 10 65) (ascii "secret") []
     (ascii "trailing data") (by decide) (by decide)⟩

end Vuln
